import Mathlib

/-!
Shallow embedding of the chess engine core in `chess.c`:
board representation, pseudo-legal move generation, the legality filter,
the check oracle, material evaluation, alpha-beta minimax and the root
move selector.  The board `cell[8][8]` array is embedded as a total
function `Int → Int → Char`; all array reads in the C code are guarded by
`in_bounds`, so the total model agrees with the C program on every
reachable access.
-/

namespace Chess

/-- The null character `'\0'`, used by `chess.c` for "no promotion". -/
def NUL : Char := Char.ofNat 0

/-- `Move` struct of chess.c: origin `(r1,f1)`, destination `(r2,f2)`,
and a promotion character (`'Q'`,`'R'`,`'B'`,`'N'` or `'\0'`). -/
structure Move where
  r1 : Int
  f1 : Int
  r2 : Int
  f2 : Int
  promotion : Char
deriving DecidableEq, Repr

/-- `Board` of chess.c (`char cell[8][8]`), embedded as a total function. -/
abbrev Board := Int → Int → Char

/-- Read `bd->cell[r][f]`. -/
def getCell (bd : Board) (r f : Int) : Char := bd r f

/-- Write `bd->cell[r][f] = c`. -/
def setCell (bd : Board) (r f : Int) (c : Char) : Board :=
  fun r' f' => if r' = r ∧ f' = f then c else bd r' f'

/-- `piece_value` of chess.c (C `switch` on `toupper(p)`). -/
def piece_value (p : Char) : Int :=
  let u := p.toUpper
  if u == 'P' then 100
  else if u == 'N' then 320
  else if u == 'B' then 330
  else if u == 'R' then 500
  else if u == 'Q' then 900
  else if u == 'K' then 20000
  else 0

/-- `is_white` of chess.c: `p && isupper(p)` (ASCII range 65-90). -/
def is_white (p : Char) : Bool := decide (65 ≤ p.toNat ∧ p.toNat ≤ 90)

/-- `is_black` of chess.c: `p && islower(p)` (ASCII range 97-122). -/
def is_black (p : Char) : Bool := decide (97 ≤ p.toNat ∧ p.toNat ≤ 122)

/-- `same_color` of chess.c. -/
def same_color (a b : Char) : Bool :=
  if a == '.' || b == '.' then false
  else (is_white a && is_white b) || (is_black a && is_black b)

/-- The eight row strings used by `init_board`. -/
def init_cells : List (List Char) :=
  ["rnbqkbnr", "pppppppp", "........", "........",
   "........", "........", "PPPPPPPP", "RNBQKBNR"].map String.toList

/-- `init_board` of chess.c: the standard starting position
(row 0 = rank 8, row 7 = rank 1). -/
def init_board : Board :=
  fun r f => (init_cells.getD r.toNat []).getD f.toNat '.'

/-- `in_bounds` of chess.c. -/
def in_bounds (r f : Int) : Bool :=
  decide (0 ≤ r) && decide (r < 8) && decide (0 ≤ f) && decide (f < 8)

/-- Pawn branch of `generate_piece_moves`: single advance, double advance
from the starting rank, and the two diagonal captures, in C order. -/
def pawnMoves (bd : Board) (r f : Int) (p : Char) : List Move :=
  let pawn_step : Int := if is_white p then -1 else 1
  let r1 := r + pawn_step
  let fwd : List Move :=
    if in_bounds r1 f && (getCell bd r1 f == '.') then
      let start_rank : Int := if is_white p then 6 else 1
      let r2 := r + 2 * pawn_step
      Move.mk r f r1 f NUL ::
        (if (r == start_rank) && in_bounds r2 f && (getCell bd r2 f == '.') then
          [Move.mk r f r2 f NUL]
        else [])
    else []
  let caps : List Move :=
    ([-1, 1] : List Int).filterMap (fun df =>
      let rf := r + pawn_step
      let ff := f + df
      if in_bounds rf ff && !(getCell bd rf ff == '.') &&
          !same_color p (getCell bd rf ff) then
        some (Move.mk r f rf ff NUL)
      else none)
  fwd ++ caps

/-- The eight knight offsets `(dr, df)` of chess.c, in array order. -/
def knight_offsets : List (Int × Int) :=
  [(-2,-1), (-2,1), (-1,-2), (-1,2), (1,-2), (1,2), (2,-1), (2,1)]

/-- Knight branch of `generate_piece_moves`. -/
def knightMoves (bd : Board) (r f : Int) (p : Char) : List Move :=
  knight_offsets.filterMap (fun d =>
    let rr := r + d.1
    let ff := f + d.2
    if in_bounds rr ff &&
        ((getCell bd rr ff == '.') || !same_color p (getCell bd rr ff)) then
      some (Move.mk r f rr ff NUL)
    else none)

/-- The eight king offsets, in the C double-loop order (`dr` outer). -/
def king_offsets : List (Int × Int) :=
  [(-1,-1), (-1,0), (-1,1), (0,-1), (0,1), (1,-1), (1,0), (1,1)]

/-- King branch of `generate_piece_moves`. -/
def kingMoves (bd : Board) (r f : Int) (p : Char) : List Move :=
  king_offsets.filterMap (fun d =>
    let rr := r + d.1
    let ff := f + d.2
    if in_bounds rr ff &&
        ((getCell bd rr ff == '.') || !same_color p (getCell bd rr ff)) then
      some (Move.mk r f rr ff NUL)
    else none)

/-- One sliding ray of `generate_piece_moves`' `while` loop: origin
`(r0,f0)`, direction `(dr,df)`, current square `(r,f)`.  The fuel bound 8
dominates the number of loop iterations on any in-bounds start square. -/
def slideRay (bd : Board) (p : Char) (r0 f0 dr df : Int) :
    Int → Int → Nat → List Move
  | _, _, 0 => []
  | r, f, n + 1 =>
    if in_bounds r f then
      if getCell bd r f == '.' then
        Move.mk r0 f0 r f NUL :: slideRay bd p r0 f0 dr df (r + dr) (f + df) n
      else if !same_color p (getCell bd r f) then [Move.mk r0 f0 r f NUL]
      else []
    else []

/-- `rook_dirs` of chess.c. -/
def rook_dirs : List (Int × Int) := [(1,0), (-1,0), (0,1), (0,-1)]

/-- `bishop_dirs` of chess.c. -/
def bishop_dirs : List (Int × Int) := [(1,1), (1,-1), (-1,1), (-1,-1)]

/-- All rays of one direction set, in C order. -/
def slideMoves (bd : Board) (r f : Int) (p : Char)
    (dirs : List (Int × Int)) : List Move :=
  dirs.flatMap (fun d => slideRay bd p r f d.1 d.2 (r + d.1) (f + d.2) 8)

/-- `generate_piece_moves` of chess.c.  Every emission in the C function is
guarded by `if (count < max_out)`, and the loops otherwise continue
unchanged, so the written buffer is exactly the `max_out`-prefix of the
unbounded generation order; `_dir` is computed and never used, as in C. -/
def generate_piece_moves (bd : Board) (r f : Int) (max_out : Nat)
    (white_turn : Bool) : List Move :=
  let p := getCell bd r f
  if p == '.' then []
  else
    let _dir : Int := if white_turn then 1 else -1
    (if p.toUpper == 'P' then pawnMoves bd r f p
     else if p.toUpper == 'N' then knightMoves bd r f p
     else if p.toUpper == 'K' then kingMoves bd r f p
     else
       (if p.toUpper == 'R' || p.toUpper == 'Q' then
          slideMoves bd r f p rook_dirs
        else []) ++
       (if p.toUpper == 'B' || p.toUpper == 'Q' then
          slideMoves bd r f p bishop_dirs
        else [])).take max_out

/-- `MAX_MOVES` of chess.c. -/
def MAX_MOVES : Nat := 256

/-- All 64 board squares in the C double-loop order (`r` outer). -/
def cells : List (Int × Int) :=
  (List.range 8).flatMap (fun r => (List.range 8).map (fun f => ((r : Int), (f : Int))))

/-- One step of the pseudo-legal collection loop of `generate_legal_moves`:
skip empty squares and pieces of the wrong color, otherwise append that
piece's moves with the remaining capacity `MAX_MOVES - alln`. -/
def pseudoStep (bd : Board) (white_turn : Bool) (acc : List Move)
    (rf : Int × Int) : List Move :=
  let p := getCell bd rf.1 rf.2
  if p == '.' then acc
  else if white_turn && !is_white p then acc
  else if !white_turn && !is_black p then acc
  else acc ++ generate_piece_moves bd rf.1 rf.2 (MAX_MOVES - acc.length) white_turn

/-- The `all[]` array built by the first half of `generate_legal_moves`. -/
def pseudo_moves (bd : Board) (white_turn : Bool) : List Move :=
  cells.foldl (pseudoStep bd white_turn) []

/-- The simulation performed inside `generate_legal_moves`' filter loop:
clear the origin and place the mover on the destination, promoting to a
queen by default when a pawn reaches row 0 or row 7 (the move's own
`promotion` field is ignored here, exactly as in C). -/
def simulate_move (bd : Board) (m : Move) : Board :=
  let mover := getCell bd m.r1 m.f1
  let tmp := setCell bd m.r1 m.f1 '.'
  if mover.toUpper == 'P' && (m.r2 == 0 || m.r2 == 7) then
    setCell tmp m.r2 m.f2 (if is_white mover then 'Q' else 'q')
  else
    setCell tmp m.r2 m.f2 mover

/-- The king-locating loop shared by `is_in_check` and the legality filter:
scan all squares and remember the last occurrence of `kingChar`. -/
def find_king (bd : Board) (kingChar : Char) : Option (Int × Int) :=
  cells.foldl
    (fun acc rf => if getCell bd rf.1 rf.2 == kingChar then some rf else acc)
    none

/-- The attack-scan loop shared by `is_in_check` and the legality filter:
does any piece of the side opposing `white_turn` pseudo-legally reach
`(kr,kf)`? -/
def opponent_attacks (bd : Board) (white_turn : Bool) (kr kf : Int) : Bool :=
  cells.any (fun rf =>
    let op := getCell bd rf.1 rf.2
    if op == '.' then false
    else if white_turn && is_white op then false
    else if !white_turn && is_black op then false
    else
      (generate_piece_moves bd rf.1 rf.2 MAX_MOVES (!white_turn)).any
        (fun m => m.r2 == kr && m.f2 == kf))

/-- `is_in_check` of chess.c: find the side's king (missing king reports
check, fail-safe) and ask whether the opponent attacks its square.  The
legality filter of `generate_legal_moves` inlines exactly this code on the
simulated board. -/
def is_in_check (bd : Board) (white_turn : Bool) : Bool :=
  let kingChar := if white_turn then 'K' else 'k'
  match find_king bd kingChar with
  | none => true
  | some (kr, kf) => opponent_attacks bd white_turn kr kf

/-- `generate_legal_moves` of chess.c: collect pseudo-legal moves, keep
those whose simulated position does not leave the mover's king in check,
writing at most `MAX_MOVES` results. -/
def generate_legal_moves (bd : Board) (white_turn : Bool) : List Move :=
  ((pseudo_moves bd white_turn).filter
      (fun m => !is_in_check (simulate_move bd m) white_turn)).take MAX_MOVES

/-- `apply_move` of chess.c. -/
def apply_move (bd : Board) (m : Move) : Board :=
  let mover := getCell bd m.r1 m.f1
  let bd1 := setCell bd m.r1 m.f1 '.'
  if mover.toUpper == 'P' && (m.r2 == 0 || m.r2 == 7) && !(m.promotion == NUL) then
    let prom := if is_black mover then m.promotion.toLower else m.promotion
    setCell bd1 m.r2 m.f2 prom
  else if mover.toUpper == 'P' && (m.r2 == 0 || m.r2 == 7) && (m.promotion == NUL) then
    setCell bd1 m.r2 m.f2 (if is_white mover then 'Q' else 'q')
  else
    setCell bd1 m.r2 m.f2 mover

/-- One step of `evaluate_board`'s accumulation loop. -/
def evalStep (bd : Board) (score : Int) (rf : Int × Int) : Int :=
  let p := getCell bd rf.1 rf.2
  if p == '.' then score
  else if is_white p then score + piece_value p
  else score - piece_value p

/-- `evaluate_board` of chess.c: signed material sum. -/
def evaluate_board (bd : Board) : Int :=
  cells.foldl (evalStep bd) 0

/-- C `INT_MIN`. -/
def INT_MIN : Int := -2147483648

/-- C `INT_MAX`. -/
def INT_MAX : Int := 2147483647

/-- C `INT_MIN/2`, the root alpha used by `choose_ai_move`. -/
def half_int_min : Int := -1073741824

/-- C `INT_MAX/2`, the root beta used by `choose_ai_move`. -/
def half_int_max : Int := 1073741823

/-- The maximizing `for` loop of `minimax`, parametrized by the recursive
call `f` at depth-1: thread `maxEval` and `alpha`, break when
`beta <= alpha`. -/
def maxGoF (f : Board → Int → Int → Int) (bd : Board) :
    List Move → Int → Int → Int → Int
  | [], maxEval, _, _ => maxEval
  | m :: rest, maxEval, alpha, beta =>
    let eval := f (apply_move bd m) alpha beta
    let maxEval' := if eval > maxEval then eval else maxEval
    let alpha' := if eval > alpha then eval else alpha
    if beta ≤ alpha' then maxEval'
    else maxGoF f bd rest maxEval' alpha' beta

/-- The minimizing `for` loop of `minimax`. -/
def minGoF (f : Board → Int → Int → Int) (bd : Board) :
    List Move → Int → Int → Int → Int
  | [], minEval, _, _ => minEval
  | m :: rest, minEval, alpha, beta =>
    let eval := f (apply_move bd m) alpha beta
    let minEval' := if eval < minEval then eval else minEval
    let beta' := if eval < beta then eval else beta
    if beta' ≤ alpha then minEval'
    else minGoF f bd rest minEval' alpha beta'

/-- `minimax` of chess.c.  The C entry test
`if (depth == 0 || n == 0) { if (n == 0) ... else return evaluate; }`
is rendered as: terminal scoring when there are no legal moves (at any
depth), static evaluation when `depth == 0` with moves remaining, and the
alpha-beta loops otherwise.  Each loop iteration applies the move to a
fresh copy of the board, as `copy_board`/`apply_move` do in C. -/
def minimax (bd : Board) (depth : Nat) (alpha beta : Int)
    (maximizingPlayer : Bool) : Int :=
  let moves := generate_legal_moves bd maximizingPlayer
  if moves.length = 0 then
    if is_in_check bd maximizingPlayer then
      if maximizingPlayer then -1000000 else 1000000
    else 0
  else
    match depth with
    | 0 => evaluate_board bd
    | d + 1 =>
      if maximizingPlayer then
        maxGoF (fun b a bb => minimax b d a bb false) bd moves INT_MIN alpha beta
      else
        minGoF (fun b a bb => minimax b d a bb true) bd moves INT_MAX alpha beta

/-- Unpruned maximizing loop: fold the plain maximum of the child values.
Modelled from the spec: the "unpruned full minimax" reference search
against which the pruning search is compared; chess.c contains only the
pruning version. -/
def fullMaxGoF (f : Board → Int) (bd : Board) : List Move → Int → Int
  | [], acc => acc
  | m :: rest, acc =>
    let eval := f (apply_move bd m)
    fullMaxGoF f bd rest (if eval > acc then eval else acc)

/-- Unpruned minimizing loop; see `fullMaxGoF`. -/
def fullMinGoF (f : Board → Int) (bd : Board) : List Move → Int → Int
  | [], acc => acc
  | m :: rest, acc =>
    let eval := f (apply_move bd m)
    fullMinGoF f bd rest (if eval < acc then eval else acc)

/-- Modelled from the spec: unpruned full minimax at the same depth, over
the same legal-move generator and the same terminal scoring as `minimax`,
with no alpha-beta window. -/
def full_minimax (bd : Board) (depth : Nat) (maximizingPlayer : Bool) : Int :=
  let moves := generate_legal_moves bd maximizingPlayer
  if moves.length = 0 then
    if is_in_check bd maximizingPlayer then
      if maximizingPlayer then -1000000 else 1000000
    else 0
  else
    match depth with
    | 0 => evaluate_board bd
    | d + 1 =>
      if maximizingPlayer then
        fullMaxGoF (fun b => full_minimax b d false) bd moves INT_MIN
      else
        fullMinGoF (fun b => full_minimax b d true) bd moves INT_MAX

/-- `AI_DEPTH` of chess.c (default 3). -/
def AI_DEPTH : Nat := 3

/-- The sentinel "no move" value `{0,0,0,0,'\0'}` of `choose_ai_move`. -/
def sentinelMove : Move := Move.mk 0 0 0 0 NUL

/-- The score `choose_ai_move` computes for one root move: apply it to a
copy and search `AI_DEPTH-1` further plies with the opponent to move and
the root window `(INT_MIN/2, INT_MAX/2)`. -/
def rootScore (bd : Board) (white_turn : Bool) (m : Move) : Int :=
  minimax (apply_move bd m) (AI_DEPTH - 1) half_int_min half_int_max (!white_turn)

/-- One iteration of `choose_ai_move`'s loop: keep the new move exactly
when its score is strictly better for the side to move. -/
def chooseStep (bd : Board) (white_turn : Bool) (acc : Move × Int)
    (m : Move) : Move × Int :=
  let score := rootScore bd white_turn m
  if white_turn then
    if score > acc.2 then (m, score) else acc
  else
    if score < acc.2 then (m, score) else acc

/-- `choose_ai_move` of chess.c. -/
def choose_ai_move (bd : Board) (white_turn : Bool) : Move :=
  let moves := generate_legal_moves bd white_turn
  if moves.length = 0 then sentinelMove
  else
    (moves.foldl (chooseStep bd white_turn)
      (sentinelMove, if white_turn then INT_MIN else INT_MAX)).1

/-- A board with no pieces at all, used as a concrete test position. -/
def empty_board : Board := fun _ _ => '.'

/-- A three-piece test position: a white pawn on a7 about to promote,
the white king on e1 and the black king on h8. -/
def promo_board : Board := fun r f =>
  if r = 1 ∧ f = 0 then 'P'
  else if r = 7 ∧ f = 4 then 'K'
  else if r = 0 ∧ f = 7 then 'k'
  else '.'

/-- The 20 legal moves of the starting position for White, in generation
order: per file one single and one double pawn advance, then the four
knight moves. -/
def start_moves : List Move :=
  [Move.mk 6 0 5 0 NUL, Move.mk 6 0 4 0 NUL,
   Move.mk 6 1 5 1 NUL, Move.mk 6 1 4 1 NUL,
   Move.mk 6 2 5 2 NUL, Move.mk 6 2 4 2 NUL,
   Move.mk 6 3 5 3 NUL, Move.mk 6 3 4 3 NUL,
   Move.mk 6 4 5 4 NUL, Move.mk 6 4 4 4 NUL,
   Move.mk 6 5 5 5 NUL, Move.mk 6 5 4 5 NUL,
   Move.mk 6 6 5 6 NUL, Move.mk 6 6 4 6 NUL,
   Move.mk 6 7 5 7 NUL, Move.mk 6 7 4 7 NUL,
   Move.mk 7 1 5 0 NUL, Move.mk 7 1 5 2 NUL,
   Move.mk 7 6 5 5 NUL, Move.mk 7 6 5 7 NUL]

/-! ### Generic helper lemmas -/

theorem foldl_const_of_forall {α β : Type} (step : α → β → α)
    (h : ∀ a b, step a b = a) : ∀ (l : List β) (a : α), l.foldl step a = a := by
  intro l
  induction l with
  | nil => intro a; rfl
  | cons x t ih => intro a; simp only [List.foldl_cons, h]; exact ih a

theorem length_generate_piece_moves_le (bd : Board) (r f : Int)
    (max_out : Nat) (wt : Bool) :
    (generate_piece_moves bd r f max_out wt).length ≤ max_out := by
  simp only [generate_piece_moves]
  split <;> simp [List.length_take]

theorem pseudoStep_length_le (bd : Board) (wt : Bool) (acc : List Move)
    (rf : Int × Int) (h : acc.length ≤ MAX_MOVES) :
    (pseudoStep bd wt acc rf).length ≤ MAX_MOVES := by
  simp only [pseudoStep]
  split
  · exact h
  · split
    · exact h
    · split
      · exact h
      · have hg := length_generate_piece_moves_le bd rf.1 rf.2
          (MAX_MOVES - acc.length) wt
        simp only [List.length_append]
        omega

theorem pseudo_fold_length_le (bd : Board) (wt : Bool) :
    ∀ (l : List (Int × Int)) (acc : List Move), acc.length ≤ MAX_MOVES →
      (l.foldl (pseudoStep bd wt) acc).length ≤ MAX_MOVES := by
  intro l
  induction l with
  | nil => intro acc h; exact h
  | cons x t ih =>
    intro acc h
    simp only [List.foldl_cons]
    exact ih _ (pseudoStep_length_le bd wt acc x h)

/-! ### C7 — bounded-buffer safety of move generation -/

/-- C7: `generate_piece_moves` returns at most `max_out` moves (the
`if (count < max_out)` guards silently truncate once the buffer is full),
and `generate_legal_moves` keeps both its internal pseudo-legal array and
its output array within `MAX_MOVES = 256` entries. -/
theorem move_generation_bounded :
    (∀ (bd : Board) (r f : Int) (max_out : Nat) (wt : Bool),
      (generate_piece_moves bd r f max_out wt).length ≤ max_out) ∧
    (∀ (bd : Board) (wt : Bool), (pseudo_moves bd wt).length ≤ MAX_MOVES) ∧
    (∀ (bd : Board) (wt : Bool),
      (generate_legal_moves bd wt).length ≤ MAX_MOVES) := by
  refine ⟨length_generate_piece_moves_le, ?_, ?_⟩
  · intro bd wt
    exact pseudo_fold_length_le bd wt cells [] (by simp [MAX_MOVES])
  · intro bd wt
    unfold generate_legal_moves
    simp [List.length_take]

/-! ### C10 — `white_turn` does not influence `generate_piece_moves` -/

/-- C10: the `white_turn` argument of `generate_piece_moves` only feeds the
dead local `dir`; the generated moves depend solely on the board contents
and the color of the piece on `(r,f)`, so both flag values give the same
list (hence the same count and the same sequence). -/
theorem generate_piece_moves_ignores_turn (bd : Board) (r f : Int)
    (max_out : Nat) :
    generate_piece_moves bd r f max_out true =
      generate_piece_moves bd r f max_out false := rfl

/-! ### C6 — default queen promotion in `apply_move` -/

/-- C6: when the origin holds a pawn and the destination is that pawn's
last rank (row 0 for White, row 7 for Black), `apply_move` places a queen
of the mover's side if the move carries no promotion choice, and a piece
of the carried kind and the mover's side otherwise. -/
theorem apply_move_promotion (bd : Board) (m : Move)
    (hpawn : (getCell bd m.r1 m.f1).toUpper = 'P')
    (hlast : (is_white (getCell bd m.r1 m.f1) = true ∧ m.r2 = 0) ∨
             (is_black (getCell bd m.r1 m.f1) = true ∧ m.r2 = 7)) :
    (m.promotion = NUL →
      getCell (apply_move bd m) m.r2 m.f2 =
        (if is_white (getCell bd m.r1 m.f1) then 'Q' else 'q')) ∧
    ((m.promotion = 'Q' ∨ m.promotion = 'R' ∨ m.promotion = 'B' ∨
        m.promotion = 'N') →
      getCell (apply_move bd m) m.r2 m.f2 =
        (if is_black (getCell bd m.r1 m.f1) then m.promotion.toLower
         else m.promotion)) := by
  have hrank : (m.r2 == (0 : Int) || m.r2 == (7 : Int)) = true := by
    rcases hlast with ⟨_, h0⟩ | ⟨_, h7⟩
    · simp [h0]
    · simp [h7]
  constructor
  · intro hnul
    unfold apply_move
    simp only [hpawn, hrank, hnul, beq_self_eq_true, Bool.and_true,
      Bool.true_and, Bool.not_true, Bool.and_false, Bool.false_and,
      if_false, if_true]
    simp [getCell, setCell]
  · intro hprom
    have hne : (m.promotion == NUL) = false := by
      rcases hprom with h | h | h | h <;> simp [h, NUL]
    unfold apply_move
    simp only [hpawn, hrank, hne, beq_self_eq_true, Bool.and_true,
      Bool.true_and, Bool.not_false, Bool.and_false, if_true]
    simp [getCell, setCell]

/-- Witness for C6 on `promo_board`: pushing the a7 pawn to a8 with no
promotion choice yields a white queen, with an explicit `'N'` a knight. -/
theorem apply_move_promotion_witness :
    getCell (apply_move promo_board (Move.mk 1 0 0 0 NUL)) 0 0 = 'Q' ∧
    getCell (apply_move promo_board (Move.mk 1 0 0 0 'N')) 0 0 = 'N' := by
  constructor
  · exact ((apply_move_promotion promo_board (Move.mk 1 0 0 0 NUL)
      (by decide) (Or.inl (by decide))).1 rfl).trans (by decide)
  · exact ((apply_move_promotion promo_board (Move.mk 1 0 0 0 'N')
      (by decide) (Or.inl (by decide))).2 (by decide)).trans (by decide)

/-! ### C8 — missing-king fail-safe -/

theorem find_king_eq_none (bd : Board) (kc : Char)
    (h : ∀ rf ∈ cells, getCell bd rf.1 rf.2 ≠ kc) :
    find_king bd kc = none := by
  unfold find_king
  have : ∀ (l : List (Int × Int)) (acc : Option (Int × Int)),
      (∀ rf ∈ l, getCell bd rf.1 rf.2 ≠ kc) →
      (l.foldl (fun acc rf =>
        if getCell bd rf.1 rf.2 == kc then some rf else acc) acc) = acc := by
    intro l
    induction l with
    | nil => intro acc _; rfl
    | cons x t ih =>
      intro acc hl
      simp only [List.foldl_cons]
      rw [if_neg (by simpa using hl x (List.mem_cons_self x t))]
      exact ih acc (fun rf hrf => hl rf (List.mem_cons_of_mem x hrf))
  exact this cells none h

/-- C8: if the given side's king character occurs on none of the 64 board
cells, `is_in_check` reports check (fail-safe); and inside the legality
filter, a candidate move whose simulated position lacks the mover's own
king is discarded. -/
theorem missing_king_fail_safe :
    (∀ (bd : Board) (wt : Bool),
      (∀ rf ∈ cells, getCell bd rf.1 rf.2 ≠ (if wt then 'K' else 'k')) →
      is_in_check bd wt = true) ∧
    (∀ (bd : Board) (wt : Bool) (m : Move),
      (∀ rf ∈ cells,
        getCell (simulate_move bd m) rf.1 rf.2 ≠ (if wt then 'K' else 'k')) →
      m ∉ generate_legal_moves bd wt) := by
  have check : ∀ (bd : Board) (wt : Bool),
      (∀ rf ∈ cells, getCell bd rf.1 rf.2 ≠ (if wt then 'K' else 'k')) →
      is_in_check bd wt = true := by
    intro bd wt h
    simp only [is_in_check]
    rw [find_king_eq_none bd _ h]
  refine ⟨check, ?_⟩
  intro bd wt m h hmem
  have hmem' : m ∈ (pseudo_moves bd wt).filter
      (fun m => !is_in_check (simulate_move bd m) wt) :=
    List.take_subset MAX_MOVES _ hmem
  have := (List.mem_filter.mp hmem').2
  rw [check (simulate_move bd m) wt h] at this
  simp at this

/-- Witness for C8 on the empty board: with no white king anywhere,
`is_in_check` reports check, and a sample move is rejected by the
legality filter. -/
theorem missing_king_fail_safe_witness :
    is_in_check empty_board true = true ∧
    Move.mk 0 0 1 1 NUL ∉ generate_legal_moves empty_board true := by
  constructor
  · exact missing_king_fail_safe.1 empty_board true (by decide)
  · exact missing_king_fail_safe.2 empty_board true (Move.mk 0 0 1 1 NUL)
      (by decide)

/-! ### C5 — completeness at the starting position -/

/-- C5: White has exactly 20 legal moves on the initial board — the
explicit list `start_moves`: for each of the 8 pawns one single and one
double advance (16 pawn moves) plus the 4 knight moves. -/
theorem initial_position_moves :
    generate_legal_moves init_board true = start_moves ∧
    start_moves.length = 20 ∧
    (start_moves.filter
      (fun m => getCell init_board m.r1 m.f1 == 'P')).length = 16 ∧
    (start_moves.filter
      (fun m => getCell init_board m.r1 m.f1 == 'P' &&
        m.r1 - m.r2 == 1)).length = 8 ∧
    (start_moves.filter
      (fun m => getCell init_board m.r1 m.f1 == 'P' &&
        m.r1 - m.r2 == 2)).length = 8 ∧
    (start_moves.filter
      (fun m => getCell init_board m.r1 m.f1 == 'N')).length = 4 := by
  refine ⟨by decide, by decide, by decide, by decide, by decide, by decide⟩

/-! ### Unfolding lemmas for `minimax` -/

theorem minimax_no_moves (bd : Board) (depth : Nat) (alpha beta : Int)
    (mx : Bool) (h : (generate_legal_moves bd mx).length = 0) :
    minimax bd depth alpha beta mx =
      (if is_in_check bd mx then (if mx then -1000000 else 1000000) else 0) := by
  rw [minimax.eq_def]
  simp [h]

theorem minimax_depth0 (bd : Board) (alpha beta : Int) (mx : Bool)
    (h : (generate_legal_moves bd mx).length ≠ 0) :
    minimax bd 0 alpha beta mx = evaluate_board bd := by
  rw [minimax.eq_def]
  simp [h]

theorem minimax_succ_max (bd : Board) (d : Nat) (alpha beta : Int)
    (h : (generate_legal_moves bd true).length ≠ 0) :
    minimax bd (d + 1) alpha beta true =
      maxGoF (fun b a bb => minimax b d a bb false) bd
        (generate_legal_moves bd true) INT_MIN alpha beta := by
  rw [minimax.eq_def]
  simp [h]

theorem minimax_succ_min (bd : Board) (d : Nat) (alpha beta : Int)
    (h : (generate_legal_moves bd false).length ≠ 0) :
    minimax bd (d + 1) alpha beta false =
      minGoF (fun b a bb => minimax b d a bb true) bd
        (generate_legal_moves bd false) INT_MAX alpha beta := by
  rw [minimax.eq_def]
  simp [h]

/-! ### Score bounds: every search value lies in `[-1280000, 1280000]` -/

theorem piece_value_bounds (p : Char) :
    0 ≤ piece_value p ∧ piece_value p ≤ 20000 := by
  simp only [piece_value]
  split_ifs <;> omega

theorem evalStep_bounds (bd : Board) (s : Int) (rf : Int × Int) :
    s - 20000 ≤ evalStep bd s rf ∧ evalStep bd s rf ≤ s + 20000 := by
  have h := piece_value_bounds (getCell bd rf.1 rf.2)
  simp only [evalStep]
  split_ifs <;> omega

theorem foldl_evalStep_bounds (bd : Board) :
    ∀ (l : List (Int × Int)) (s : Int),
      s - 20000 * l.length ≤ l.foldl (evalStep bd) s ∧
      l.foldl (evalStep bd) s ≤ s + 20000 * l.length := by
  intro l
  induction l with
  | nil => intro s; simp
  | cons x t ih =>
    intro s
    have h1 := evalStep_bounds bd s x
    have h2 := ih (evalStep bd s x)
    simp only [List.foldl_cons, List.length_cons] at *
    constructor <;> push_cast at * <;> omega

theorem evaluate_board_bounds (bd : Board) :
    -1280000 ≤ evaluate_board bd ∧ evaluate_board bd ≤ 1280000 := by
  have h := foldl_evalStep_bounds bd cells 0
  have hc : cells.length = 64 := by decide
  unfold evaluate_board
  rw [hc] at h
  omega

theorem maxGoF_bound (f : Board → Int → Int → Int) (bd : Board) (S : Int)
    (hf : ∀ b a bb, -S ≤ f b a bb ∧ f b a bb ≤ S) :
    ∀ (ms : List Move) (me alpha beta : Int),
      me ≤ maxGoF f bd ms me alpha beta ∧
      maxGoF f bd ms me alpha beta ≤ max me S ∧
      (ms ≠ [] → -S ≤ maxGoF f bd ms me alpha beta) := by
  intro ms
  induction ms with
  | nil => intro me α β; simp [maxGoF]
  | cons m rest ih =>
    intro me α β
    obtain ⟨he1, he2⟩ := hf (apply_move bd m) α β
    simp only [maxGoF]
    by_cases hbr : β ≤ (if f (apply_move bd m) α β > α then f (apply_move bd m) α β else α)
    · rw [if_pos hbr]
      refine ⟨?_, ?_, fun _ => ?_⟩ <;> split_ifs <;> omega
    · rw [if_neg hbr]
      obtain ⟨i1, i2, _⟩ := ih
        (if f (apply_move bd m) α β > me then f (apply_move bd m) α β else me)
        (if f (apply_move bd m) α β > α then f (apply_move bd m) α β else α) β
      refine ⟨?_, ?_, fun _ => ?_⟩ <;> split_ifs at * <;> omega

theorem minGoF_bound (f : Board → Int → Int → Int) (bd : Board) (S : Int)
    (hf : ∀ b a bb, -S ≤ f b a bb ∧ f b a bb ≤ S) :
    ∀ (ms : List Move) (me alpha beta : Int),
      minGoF f bd ms me alpha beta ≤ me ∧
      min me (-S) ≤ minGoF f bd ms me alpha beta ∧
      (ms ≠ [] → minGoF f bd ms me alpha beta ≤ S) := by
  intro ms
  induction ms with
  | nil => intro me α β; simp [minGoF]
  | cons m rest ih =>
    intro me α β
    obtain ⟨he1, he2⟩ := hf (apply_move bd m) α β
    simp only [minGoF]
    by_cases hbr : (if f (apply_move bd m) α β < β then f (apply_move bd m) α β else β) ≤ α
    · rw [if_pos hbr]
      refine ⟨?_, ?_, fun _ => ?_⟩ <;> split_ifs <;> omega
    · rw [if_neg hbr]
      obtain ⟨i1, i2, _⟩ := ih
        (if f (apply_move bd m) α β < me then f (apply_move bd m) α β else me) α
        (if f (apply_move bd m) α β < β then f (apply_move bd m) α β else β)
      refine ⟨?_, ?_, fun _ => ?_⟩ <;> split_ifs at * <;> omega

theorem minimax_bounds :
    ∀ (depth : Nat) (bd : Board) (alpha beta : Int) (mx : Bool),
      -1280000 ≤ minimax bd depth alpha beta mx ∧
      minimax bd depth alpha beta mx ≤ 1280000 := by
  intro depth
  induction depth with
  | zero =>
    intro bd α β mx
    by_cases h : (generate_legal_moves bd mx).length = 0
    · rw [minimax_no_moves bd 0 α β mx h]
      split_ifs <;> omega
    · rw [minimax_depth0 bd α β mx h]
      exact evaluate_board_bounds bd
  | succ d ih =>
    intro bd α β mx
    by_cases h : (generate_legal_moves bd mx).length = 0
    · rw [minimax_no_moves bd (d + 1) α β mx h]
      split_ifs <;> omega
    · have hne : generate_legal_moves bd mx ≠ [] := by
        intro hnil; rw [hnil] at h; exact h rfl
      have hIM : INT_MIN = -2147483648 := rfl
      have hIX : INT_MAX = 2147483647 := rfl
      cases mx with
      | true =>
        rw [minimax_succ_max bd d α β h]
        obtain ⟨b1, b2, b3⟩ := maxGoF_bound
          (fun b a bb => minimax b d a bb false) bd 1280000
          (fun b a bb => ih b a bb false)
          (generate_legal_moves bd true) INT_MIN α β
        have := b3 hne
        constructor <;> omega
      | false =>
        rw [minimax_succ_min bd d α β h]
        obtain ⟨b1, b2, b3⟩ := minGoF_bound
          (fun b a bb => minimax b d a bb true) bd 1280000
          (fun b a bb => ih b a bb true)
          (generate_legal_moves bd false) INT_MAX α β
        have := b3 hne
        constructor <;> omega

theorem rootScore_bounds (bd : Board) (wt : Bool) (m : Move) :
    -1280000 ≤ rootScore bd wt m ∧ rootScore bd wt m ≤ 1280000 :=
  minimax_bounds (AI_DEPTH - 1) (apply_move bd m) half_int_min half_int_max (!wt)

/-! ### C3 — terminal scoring of the search -/

/-- C3: with zero legal moves `minimax` returns the mate score
`-1000000`/`+1000000` signed against the side to move when that side is in
check and exactly `0` otherwise (stalemate); with moves remaining and
`depth = 0` it returns the static material evaluation. -/
theorem minimax_terminal_scoring (bd : Board) (depth : Nat)
    (alpha beta : Int) (mx : Bool) :
    ((generate_legal_moves bd mx).length = 0 →
      minimax bd depth alpha beta mx =
        (if is_in_check bd mx then (if mx then -1000000 else 1000000)
         else 0)) ∧
    ((generate_legal_moves bd mx).length ≠ 0 → depth = 0 →
      minimax bd depth alpha beta mx = evaluate_board bd) := by
  constructor
  · intro h
    exact minimax_no_moves bd depth alpha beta mx h
  · intro h h0
    subst h0
    exact minimax_depth0 bd alpha beta mx h

/-- Witness for C3: the empty board has no white moves and a missing white
king (hence "in check"), so `minimax` returns the mate score `-1000000`;
the initial board at depth 0 returns the static evaluation. -/
theorem minimax_terminal_scoring_witness :
    minimax empty_board 3 0 1 true = -1000000 ∧
    minimax init_board 0 0 1 true = evaluate_board init_board := by
  constructor
  · exact ((minimax_terminal_scoring empty_board 3 0 1 true).1
      (by decide)).trans (by decide)
  · exact (minimax_terminal_scoring init_board 0 0 1 true).2 (by decide) rfl

/-! ### C4 — the root move selector picks the first best-scoring move -/

theorem chooseFold_max (bd : Board) :
    ∀ (l : List Move) (mv : Move) (sc : Int), sc = rootScore bd true mv →
      (l.foldl (chooseStep bd true) (mv, sc)).2 =
        rootScore bd true (l.foldl (chooseStep bd true) (mv, sc)).1 ∧
      sc ≤ (l.foldl (chooseStep bd true) (mv, sc)).2 ∧
      (∀ x ∈ l, rootScore bd true x ≤ (l.foldl (chooseStep bd true) (mv, sc)).2) ∧
      (((l.foldl (chooseStep bd true) (mv, sc)).1 = mv ∧
          (l.foldl (chooseStep bd true) (mv, sc)).2 = sc) ∨
        ∃ l1 l2, l = l1 ++ (l.foldl (chooseStep bd true) (mv, sc)).1 :: l2 ∧
          sc < (l.foldl (chooseStep bd true) (mv, sc)).2 ∧
          ∀ y ∈ l1, rootScore bd true y <
            (l.foldl (chooseStep bd true) (mv, sc)).2) := by
  intro l
  induction l with
  | nil =>
    intro mv sc hsc
    exact ⟨hsc, le_refl sc, by simp, Or.inl ⟨rfl, rfl⟩⟩
  | cons x t ih =>
    intro mv sc hsc
    simp only [List.foldl_cons, chooseStep, if_true]
    by_cases hx : rootScore bd true x > sc
    · rw [if_pos hx]
      obtain ⟨i0, i1, i2, i3⟩ := ih x (rootScore bd true x) rfl
      refine ⟨i0, by omega, ?_, ?_⟩
      · intro y hy
        rcases List.mem_cons.mp hy with hyx | hyt
        · rw [hyx]; exact i1
        · exact i2 y hyt
      · rcases i3 with ⟨hm, hs⟩ | ⟨l1, l2, heq, hlt, hall⟩
        · refine Or.inr ⟨[], t, ?_, by omega, by simp⟩
          rw [hm]
          simp
        · refine Or.inr ⟨x :: l1, l2, ?_, by omega, ?_⟩
          · simp only [List.cons_append]
            exact congrArg (List.cons x) heq
          · intro y hy
            rcases List.mem_cons.mp hy with hyx | hyl
            · rw [hyx]; omega
            · exact hall y hyl
    · rw [if_neg hx]
      obtain ⟨i0, i1, i2, i3⟩ := ih mv sc hsc
      refine ⟨i0, i1, ?_, ?_⟩
      · intro y hy
        rcases List.mem_cons.mp hy with hyx | hyt
        · rw [hyx]; omega
        · exact i2 y hyt
      · rcases i3 with hL | ⟨l1, l2, heq, hlt, hall⟩
        · exact Or.inl hL
        · refine Or.inr ⟨x :: l1, l2, ?_, hlt, ?_⟩
          · simp only [List.cons_append]
            exact congrArg (List.cons x) heq
          · intro y hy
            rcases List.mem_cons.mp hy with hyx | hyl
            · rw [hyx]; omega
            · exact hall y hyl

theorem chooseFold_min (bd : Board) :
    ∀ (l : List Move) (mv : Move) (sc : Int), sc = rootScore bd false mv →
      (l.foldl (chooseStep bd false) (mv, sc)).2 =
        rootScore bd false (l.foldl (chooseStep bd false) (mv, sc)).1 ∧
      (l.foldl (chooseStep bd false) (mv, sc)).2 ≤ sc ∧
      (∀ x ∈ l, (l.foldl (chooseStep bd false) (mv, sc)).2 ≤ rootScore bd false x) ∧
      (((l.foldl (chooseStep bd false) (mv, sc)).1 = mv ∧
          (l.foldl (chooseStep bd false) (mv, sc)).2 = sc) ∨
        ∃ l1 l2, l = l1 ++ (l.foldl (chooseStep bd false) (mv, sc)).1 :: l2 ∧
          (l.foldl (chooseStep bd false) (mv, sc)).2 < sc ∧
          ∀ y ∈ l1, (l.foldl (chooseStep bd false) (mv, sc)).2 <
            rootScore bd false y) := by
  intro l
  induction l with
  | nil =>
    intro mv sc hsc
    exact ⟨hsc, le_refl sc, by simp, Or.inl ⟨rfl, rfl⟩⟩
  | cons x t ih =>
    intro mv sc hsc
    simp only [List.foldl_cons, chooseStep, Bool.false_eq_true, if_false]
    by_cases hx : rootScore bd false x < sc
    · rw [if_pos hx]
      obtain ⟨i0, i1, i2, i3⟩ := ih x (rootScore bd false x) rfl
      refine ⟨i0, by omega, ?_, ?_⟩
      · intro y hy
        rcases List.mem_cons.mp hy with hyx | hyt
        · rw [hyx]; exact i1
        · exact i2 y hyt
      · rcases i3 with ⟨hm, hs⟩ | ⟨l1, l2, heq, hlt, hall⟩
        · refine Or.inr ⟨[], t, ?_, by omega, by simp⟩
          rw [hm]
          simp
        · refine Or.inr ⟨x :: l1, l2, ?_, by omega, ?_⟩
          · simp only [List.cons_append]
            exact congrArg (List.cons x) heq
          · intro y hy
            rcases List.mem_cons.mp hy with hyx | hyl
            · rw [hyx]; omega
            · exact hall y hyl
    · rw [if_neg hx]
      obtain ⟨i0, i1, i2, i3⟩ := ih mv sc hsc
      refine ⟨i0, i1, ?_, ?_⟩
      · intro y hy
        rcases List.mem_cons.mp hy with hyx | hyt
        · rw [hyx]; omega
        · exact i2 y hyt
      · rcases i3 with hL | ⟨l1, l2, heq, hlt, hall⟩
        · exact Or.inl hL
        · refine Or.inr ⟨x :: l1, l2, ?_, hlt, ?_⟩
          · simp only [List.cons_append]
            exact congrArg (List.cons x) heq
          · intro y hy
            rcases List.mem_cons.mp hy with hyx | hyl
            · rw [hyx]; omega
            · exact hall y hyl

/-- C4: with no legal moves `choose_ai_move` returns the sentinel move
`(0,0)->(0,0)` with no promotion; otherwise the chosen move splits the
legal-move list as `l1 ++ chosen :: l2` where every legal move scores no
better than the chosen one (maximum for White, minimum for Black) under a
`minimax` search of `AI_DEPTH - 1` further plies with the opponent to move
and the root window, and every move generated before it scores strictly
worse — ties are broken by first-found. -/
theorem choose_ai_move_spec (bd : Board) (wt : Bool) :
    (generate_legal_moves bd wt = [] → choose_ai_move bd wt = sentinelMove) ∧
    (generate_legal_moves bd wt ≠ [] →
      ∃ l1 l2,
        generate_legal_moves bd wt = l1 ++ choose_ai_move bd wt :: l2 ∧
        (∀ x ∈ generate_legal_moves bd wt,
          if wt then
            rootScore bd wt x ≤ rootScore bd wt (choose_ai_move bd wt)
          else
            rootScore bd wt (choose_ai_move bd wt) ≤ rootScore bd wt x) ∧
        (∀ x ∈ l1,
          if wt then
            rootScore bd wt x < rootScore bd wt (choose_ai_move bd wt)
          else
            rootScore bd wt (choose_ai_move bd wt) < rootScore bd wt x)) := by
  constructor
  · intro h
    simp only [choose_ai_move, h]
    simp
  · intro h
    cases hl : generate_legal_moves bd wt with
    | nil => exact absurd hl h
    | cons m1 rest =>
      have hlen : (generate_legal_moves bd wt).length ≠ 0 := by
        rw [hl]; simp
      have hbm1 := rootScore_bounds bd wt m1
      cases wt with
      | true =>
        have hstep1 : chooseStep bd true (sentinelMove, INT_MIN) m1 =
            (m1, rootScore bd true m1) := by
          simp only [chooseStep, if_true]
          rw [if_pos (by have : INT_MIN = -2147483648 := rfl; omega)]
        simp only [choose_ai_move, hl, if_true]
        rw [if_neg (by simp), List.foldl_cons, hstep1]
        obtain ⟨i0, i1, i2, i3⟩ := chooseFold_max bd rest m1
          (rootScore bd true m1) rfl
        set r := rest.foldl (chooseStep bd true) (m1, rootScore bd true m1)
          with hr
        rcases i3 with ⟨hm, hs⟩ | ⟨l1, l2, heq, hlt, hall⟩
        · refine ⟨[], rest, ?_, ?_, by simp⟩
          · rw [hm]
            simp
          · intro x hx
            rw [← i0]
            rcases List.mem_cons.mp hx with hx1 | hxt
            · rw [hx1]; exact i1
            · exact i2 x hxt
        · refine ⟨m1 :: l1, l2, ?_, ?_, ?_⟩
          · simp only [List.cons_append]
            exact congrArg (List.cons m1) heq
          · intro x hx
            rw [← i0]
            rcases List.mem_cons.mp hx with hx1 | hxt
            · rw [hx1]; omega
            · exact i2 x hxt
          · intro x hx
            rw [← i0]
            rcases List.mem_cons.mp hx with hx1 | hxl
            · rw [hx1]; omega
            · exact hall x hxl
      | false =>
        have hstep1 : chooseStep bd false (sentinelMove, INT_MAX) m1 =
            (m1, rootScore bd false m1) := by
          simp only [chooseStep, Bool.false_eq_true, if_false]
          rw [if_pos (by have : INT_MAX = 2147483647 := rfl; omega)]
        simp only [choose_ai_move, hl, Bool.false_eq_true, if_false]
        rw [if_neg (by simp), List.foldl_cons, hstep1]
        obtain ⟨i0, i1, i2, i3⟩ := chooseFold_min bd rest m1
          (rootScore bd false m1) rfl
        set r := rest.foldl (chooseStep bd false) (m1, rootScore bd false m1)
          with hr
        rcases i3 with ⟨hm, hs⟩ | ⟨l1, l2, heq, hlt, hall⟩
        · refine ⟨[], rest, ?_, ?_, by simp⟩
          · rw [hm]
            simp
          · intro x hx
            rw [← i0]
            rcases List.mem_cons.mp hx with hx1 | hxt
            · rw [hx1]; exact i1
            · exact i2 x hxt
        · refine ⟨m1 :: l1, l2, ?_, ?_, ?_⟩
          · simp only [List.cons_append]
            exact congrArg (List.cons m1) heq
          · intro x hx
            rw [← i0]
            rcases List.mem_cons.mp hx with hx1 | hxt
            · rw [hx1]; omega
            · exact i2 x hxt
          · intro x hx
            rw [← i0]
            rcases List.mem_cons.mp hx with hx1 | hxl
            · rw [hx1]; omega
            · exact hall x hxl

/-- Witness for C4: the empty board has no legal moves so the selector
returns the sentinel; on `promo_board` it returns a first-best member of
the legal list. -/
theorem choose_ai_move_spec_witness :
    choose_ai_move empty_board true = sentinelMove ∧
    (∃ l1 l2,
      generate_legal_moves promo_board true =
        l1 ++ choose_ai_move promo_board true :: l2 ∧
      (∀ x ∈ generate_legal_moves promo_board true,
        if true then
          rootScore promo_board true x ≤
            rootScore promo_board true (choose_ai_move promo_board true)
        else
          rootScore promo_board true (choose_ai_move promo_board true) ≤
            rootScore promo_board true x) ∧
      (∀ x ∈ l1,
        if true then
          rootScore promo_board true x <
            rootScore promo_board true (choose_ai_move promo_board true)
        else
          rootScore promo_board true (choose_ai_move promo_board true) <
            rootScore promo_board true x)) := by
  constructor
  · exact (choose_ai_move_spec empty_board true).1 (by decide)
  · exact (choose_ai_move_spec promo_board true).2 (by decide)

/-! ### Origin and color of generated moves -/

theorem pawnMoves_origin (bd : Board) (r f : Int) (p : Char) :
    ∀ m ∈ pawnMoves bd r f p, m.r1 = r ∧ m.f1 = f := by
  intro m hm
  simp only [pawnMoves, List.mem_append, List.mem_filterMap] at hm
  rcases hm with h | ⟨df, hdf, hsome⟩
  · simp at h
    obtain ⟨-, h2 | ⟨-, h2⟩⟩ := h <;> subst h2 <;> exact ⟨rfl, rfl⟩
  · simp at hsome
    have h2 := hsome.2
    subst h2
    exact ⟨rfl, rfl⟩

theorem knightMoves_origin (bd : Board) (r f : Int) (p : Char) :
    ∀ m ∈ knightMoves bd r f p, m.r1 = r ∧ m.f1 = f := by
  intro m hm
  rcases List.mem_filterMap.mp hm with ⟨d, _, hsome⟩
  simp at hsome
  have h2 := hsome.2
  subst h2
  exact ⟨rfl, rfl⟩

theorem kingMoves_origin (bd : Board) (r f : Int) (p : Char) :
    ∀ m ∈ kingMoves bd r f p, m.r1 = r ∧ m.f1 = f := by
  intro m hm
  rcases List.mem_filterMap.mp hm with ⟨d, _, hsome⟩
  simp at hsome
  have h2 := hsome.2
  subst h2
  exact ⟨rfl, rfl⟩

theorem slideRay_origin (bd : Board) (p : Char) (r0 f0 dr df : Int) :
    ∀ (n : Nat) (ri fi : Int), ∀ m ∈ slideRay bd p r0 f0 dr df ri fi n,
      m.r1 = r0 ∧ m.f1 = f0 := by
  intro n
  induction n with
  | zero => intro ri fi m hm; simp [slideRay] at hm
  | succ k ih =>
    intro ri fi m hm
    simp only [slideRay] at hm
    split at hm
    · split at hm
      · rcases List.mem_cons.mp hm with h1 | h1
        · subst h1; exact ⟨rfl, rfl⟩
        · exact ih _ _ m h1
      · split at hm
        · have h2 := List.mem_singleton.mp hm
          subst h2; exact ⟨rfl, rfl⟩
        · simp at hm
    · simp at hm

theorem slideMoves_origin (bd : Board) (r f : Int) (p : Char)
    (dirs : List (Int × Int)) :
    ∀ m ∈ slideMoves bd r f p dirs, m.r1 = r ∧ m.f1 = f := by
  intro m hm
  rcases List.mem_flatMap.mp hm with ⟨d, _, h⟩
  exact slideRay_origin bd p r f d.1 d.2 8 _ _ m h

theorem generate_piece_moves_origin (bd : Board) (r f : Int) (mx : Nat)
    (wt : Bool) :
    ∀ m ∈ generate_piece_moves bd r f mx wt, m.r1 = r ∧ m.f1 = f := by
  intro m hm
  simp only [generate_piece_moves] at hm
  split at hm
  · simp at hm
  · have hm' := List.take_subset _ _ hm
    split at hm'
    · exact pawnMoves_origin bd r f _ m hm'
    · split at hm'
      · exact knightMoves_origin bd r f _ m hm'
      · split at hm'
        · exact kingMoves_origin bd r f _ m hm'
        · rcases List.mem_append.mp hm' with h | h
          · split at h
            · exact slideMoves_origin bd r f _ _ m h
            · simp at h
          · split at h
            · exact slideMoves_origin bd r f _ _ m h
            · simp at h

theorem mem_pseudoStep (bd : Board) (wt : Bool) (acc : List Move)
    (rf : Int × Int) (m : Move) (h : m ∈ pseudoStep bd wt acc rf) :
    m ∈ acc ∨
      (m ∈ generate_piece_moves bd rf.1 rf.2 (MAX_MOVES - acc.length) wt ∧
       (if wt then is_white (getCell bd rf.1 rf.2)
        else is_black (getCell bd rf.1 rf.2)) = true) := by
  simp only [pseudoStep] at h
  by_cases h1 : (getCell bd rf.1 rf.2 == '.') = true
  · rw [if_pos h1] at h; exact Or.inl h
  · rw [if_neg h1] at h
    by_cases h2 : (wt && !is_white (getCell bd rf.1 rf.2)) = true
    · rw [if_pos h2] at h; exact Or.inl h
    · rw [if_neg h2] at h
      by_cases h3 : (!wt && !is_black (getCell bd rf.1 rf.2)) = true
      · rw [if_pos h3] at h; exact Or.inl h
      · rw [if_neg h3] at h
        rcases List.mem_append.mp h with hA | hG
        · exact Or.inl hA
        · refine Or.inr ⟨hG, ?_⟩
          cases wt with
          | true =>
            simp only [if_true]
            simp only [Bool.true_and, Bool.not_eq_true'] at h2
            simp [h2]
          | false =>
            simp only [Bool.false_eq_true, if_false]
            simp only [Bool.not_false, Bool.true_and, Bool.not_eq_true'] at h3
            simp [h3]

theorem mem_pseudo_fold (bd : Board) (wt : Bool) :
    ∀ (l : List (Int × Int)) (acc : List Move) (m : Move),
      m ∈ l.foldl (pseudoStep bd wt) acc →
      m ∈ acc ∨ ∃ (rf : Int × Int) (cap : Nat), m ∈ generate_piece_moves bd rf.1 rf.2 cap wt ∧
        (if wt then is_white (getCell bd rf.1 rf.2)
         else is_black (getCell bd rf.1 rf.2)) = true := by
  intro l
  induction l with
  | nil => intro acc m hm; exact Or.inl hm
  | cons x t ih =>
    intro acc m hm
    simp only [List.foldl_cons] at hm
    rcases ih _ m hm with hstep | hrest
    · rcases mem_pseudoStep bd wt acc x m hstep with hA | ⟨hG, hcol⟩
      · exact Or.inl hA
      · exact Or.inr ⟨x, MAX_MOVES - acc.length, hG, hcol⟩
    · exact Or.inr hrest

/-- A move kept by `generate_legal_moves` does not leave the mover's king
in check in the simulated position (the filter's defining test). -/
theorem legal_move_not_check (bd : Board) (wt : Bool) (m : Move)
    (h : m ∈ generate_legal_moves bd wt) :
    is_in_check (simulate_move bd m) wt = false := by
  have h2 := (List.mem_filter.mp (List.take_subset _ _ h)).2
  simpa using h2

/-- A move kept by `generate_legal_moves` originates from a square holding
a piece of the side to move. -/
theorem legal_move_mover_color (bd : Board) (wt : Bool) (m : Move)
    (h : m ∈ generate_legal_moves bd wt) :
    (if wt then is_white (getCell bd m.r1 m.f1)
     else is_black (getCell bd m.r1 m.f1)) = true := by
  have hps : m ∈ pseudo_moves bd wt :=
    (List.mem_filter.mp (List.take_subset _ _ h)).1
  unfold pseudo_moves at hps
  rcases mem_pseudo_fold bd wt cells [] m hps with h0 | ⟨rf, cap, hg, hcol⟩
  · simp at h0
  · obtain ⟨h1, h2⟩ := generate_piece_moves_origin bd rf.1 rf.2 cap wt m hg
    rw [h1, h2]
    exact hcol

theorem is_white_not_black (c : Char) (h : is_white c = true) :
    is_black c = false := by
  simp only [is_white, decide_eq_true_eq] at h
  simp only [is_black, decide_eq_false_iff_not]
  omega

theorem is_black_not_white (c : Char) (h : is_black c = true) :
    is_white c = false := by
  simp only [is_black, decide_eq_true_eq] at h
  simp only [is_white, decide_eq_false_iff_not]
  omega

/-! ### Check-oracle congruence: a same-colored non-king piece on a square
is indistinguishable to the opposing side's attack generation -/

/-- Two boards are check-equivalent for side `wt` when every square either
holds the same character on both, or holds pieces of the moving side's
color on both that agree on the emptiness/color predicates and neither of
which is that side's king character. -/
def check_equiv (b1 b2 : Board) (wt : Bool) : Prop :=
  ∀ r f : Int, getCell b1 r f = getCell b2 r f ∨
    ((getCell b1 r f == '.') = (getCell b2 r f == '.') ∧
     is_white (getCell b1 r f) = is_white (getCell b2 r f) ∧
     is_black (getCell b1 r f) = is_black (getCell b2 r f) ∧
     (if wt then is_white (getCell b1 r f)
      else is_black (getCell b1 r f)) = true ∧
     getCell b1 r f ≠ (if wt then 'K' else 'k') ∧
     getCell b2 r f ≠ (if wt then 'K' else 'k'))

theorem check_equiv_dot {b1 b2 : Board} {wt : Bool}
    (h : check_equiv b1 b2 wt) :
    ∀ r f : Int, (getCell b1 r f == '.') = (getCell b2 r f == '.') := by
  intro r f
  rcases h r f with he | hc
  · rw [he]
  · exact hc.1

theorem check_equiv_white {b1 b2 : Board} {wt : Bool}
    (h : check_equiv b1 b2 wt) :
    ∀ r f : Int, is_white (getCell b1 r f) = is_white (getCell b2 r f) := by
  intro r f
  rcases h r f with he | hc
  · rw [he]
  · exact hc.2.1

theorem check_equiv_black {b1 b2 : Board} {wt : Bool}
    (h : check_equiv b1 b2 wt) :
    ∀ r f : Int, is_black (getCell b1 r f) = is_black (getCell b2 r f) := by
  intro r f
  rcases h r f with he | hc
  · rw [he]
  · exact hc.2.2.1

theorem check_equiv_same_color {b1 b2 : Board} {wt : Bool}
    (h : check_equiv b1 b2 wt) :
    ∀ (p : Char) (r f : Int),
      same_color p (getCell b1 r f) = same_color p (getCell b2 r f) := by
  intro p r f
  simp only [same_color]
  rw [check_equiv_dot h, check_equiv_white h, check_equiv_black h]

theorem pawnMoves_congr {b1 b2 : Board} {wt : Bool}
    (h : check_equiv b1 b2 wt) (r f : Int) (p : Char) :
    pawnMoves b1 r f p = pawnMoves b2 r f p := by
  have hd := check_equiv_dot h
  have hsc := check_equiv_same_color h
  simp only [pawnMoves, hd, hsc]

theorem knightMoves_congr {b1 b2 : Board} {wt : Bool}
    (h : check_equiv b1 b2 wt) (r f : Int) (p : Char) :
    knightMoves b1 r f p = knightMoves b2 r f p := by
  have hd := check_equiv_dot h
  have hsc := check_equiv_same_color h
  simp only [knightMoves, hd, hsc]

theorem kingMoves_congr {b1 b2 : Board} {wt : Bool}
    (h : check_equiv b1 b2 wt) (r f : Int) (p : Char) :
    kingMoves b1 r f p = kingMoves b2 r f p := by
  have hd := check_equiv_dot h
  have hsc := check_equiv_same_color h
  simp only [kingMoves, hd, hsc]

theorem slideRay_congr {b1 b2 : Board} {wt : Bool}
    (h : check_equiv b1 b2 wt) :
    ∀ (n : Nat) (p : Char) (r0 f0 dr df ri fi : Int),
      slideRay b1 p r0 f0 dr df ri fi n =
        slideRay b2 p r0 f0 dr df ri fi n := by
  have hd := check_equiv_dot h
  have hsc := check_equiv_same_color h
  intro n
  induction n with
  | zero => intros; rfl
  | succ k ih =>
    intro p r0 f0 dr df ri fi
    simp only [slideRay, hd, hsc, ih]

theorem slideMoves_congr {b1 b2 : Board} {wt : Bool}
    (h : check_equiv b1 b2 wt) (r f : Int) (p : Char)
    (dirs : List (Int × Int)) :
    slideMoves b1 r f p dirs = slideMoves b2 r f p dirs := by
  simp only [slideMoves, slideRay_congr h]

theorem generate_piece_moves_congr {b1 b2 : Board} {wt : Bool}
    (h : check_equiv b1 b2 wt) (R F : Int)
    (hp : getCell b1 R F = getCell b2 R F) (mx : Nat) (wt' : Bool) :
    generate_piece_moves b1 R F mx wt' = generate_piece_moves b2 R F mx wt' := by
  simp only [generate_piece_moves, hp, pawnMoves_congr h, knightMoves_congr h,
    kingMoves_congr h, slideMoves_congr h]

theorem list_any_congr {α : Type} (p q : α → Bool) :
    ∀ (l : List α), (∀ x ∈ l, p x = q x) → l.any p = l.any q := by
  intro l
  induction l with
  | nil => intro _; rfl
  | cons x t ih =>
    intro hl
    simp only [List.any_cons]
    rw [hl x (List.mem_cons_self x t),
      ih (fun y hy => hl y (List.mem_cons_of_mem x hy))]

theorem list_foldl_congr {α β : Type} (f g : α → β → α) :
    ∀ (l : List β) (a : α), (∀ (a0 : α), ∀ x ∈ l, f a0 x = g a0 x) →
      l.foldl f a = l.foldl g a := by
  intro l
  induction l with
  | nil => intro a _; rfl
  | cons x t ih =>
    intro a hl
    simp only [List.foldl_cons]
    rw [hl a x (List.mem_cons_self x t)]
    exact ih _ (fun a0 y hy => hl a0 y (List.mem_cons_of_mem x hy))

theorem is_white_ne_dot (c : Char) (h : is_white c = true) :
    (c == '.') = false := by
  by_cases hd : c = '.'
  · rw [hd] at h; exact absurd h (by decide)
  · exact beq_eq_false_iff_ne.mpr hd

theorem is_black_ne_dot (c : Char) (h : is_black c = true) :
    (c == '.') = false := by
  by_cases hd : c = '.'
  · rw [hd] at h; exact absurd h (by decide)
  · exact beq_eq_false_iff_ne.mpr hd

theorem opponent_attacks_congr {b1 b2 : Board} {wt : Bool}
    (h : check_equiv b1 b2 wt) (kr kf : Int) :
    opponent_attacks b1 wt kr kf = opponent_attacks b2 wt kr kf := by
  simp only [opponent_attacks]
  apply list_any_congr
  intro rf hrf
  dsimp only
  rcases h rf.1 rf.2 with he | ⟨hdoteq, hweq, hbeq, hown, hk1, hk2⟩
  · rw [he, generate_piece_moves_congr h rf.1 rf.2 he MAX_MOVES (!wt)]
  · cases wt with
    | true =>
      simp only [if_true] at hown
      have h1 := is_white_ne_dot _ hown
      have h2 : (getCell b2 rf.1 rf.2 == '.') = false := by
        rw [← hdoteq]; exact h1
      have h3 : is_white (getCell b2 rf.1 rf.2) = true := by
        rw [← hweq]; exact hown
      simp [h1, h2, hown, h3]
    | false =>
      simp only [Bool.false_eq_true, if_false] at hown
      have h1 := is_black_ne_dot _ hown
      have h2 : (getCell b2 rf.1 rf.2 == '.') = false := by
        rw [← hdoteq]; exact h1
      have h3 : is_black (getCell b2 rf.1 rf.2) = true := by
        rw [← hbeq]; exact hown
      simp [h1, h2, hown, h3]

theorem find_king_congr {b1 b2 : Board} {wt : Bool}
    (h : check_equiv b1 b2 wt) :
    find_king b1 (if wt then 'K' else 'k') =
      find_king b2 (if wt then 'K' else 'k') := by
  unfold find_king
  apply list_foldl_congr
  intro acc rf hrf
  rcases h rf.1 rf.2 with he | ⟨_, _, _, _, hk1, hk2⟩
  · rw [he]
  · have e1 : (getCell b1 rf.1 rf.2 == (if wt then 'K' else 'k')) = false :=
      beq_eq_false_iff_ne.mpr hk1
    have e2 : (getCell b2 rf.1 rf.2 == (if wt then 'K' else 'k')) = false :=
      beq_eq_false_iff_ne.mpr hk2
    rw [e1, e2]

theorem is_in_check_congr {b1 b2 : Board} {wt : Bool}
    (h : check_equiv b1 b2 wt) :
    is_in_check b1 wt = is_in_check b2 wt := by
  simp only [is_in_check]
  rw [find_king_congr h]
  rcases hfk : find_king b2 (if wt then 'K' else 'k') with - | ⟨kr, kf⟩
  · rfl
  · exact opponent_attacks_congr h kr kf

theorem check_equiv_setCell (base : Board) (R F : Int) (X Y : Char)
    (wt : Bool) (hdot : (X == '.') = (Y == '.'))
    (hwXY : is_white X = is_white Y) (hbXY : is_black X = is_black Y)
    (hown : (if wt then is_white X else is_black X) = true)
    (hk1 : X ≠ (if wt then 'K' else 'k'))
    (hk2 : Y ≠ (if wt then 'K' else 'k')) :
    check_equiv (setCell base R F X) (setCell base R F Y) wt := by
  intro r f
  by_cases hc : r = R ∧ f = F
  · right
    have e1 : getCell (setCell base R F X) r f = X := if_pos hc
    have e2 : getCell (setCell base R F Y) r f = Y := if_pos hc
    rw [e1, e2]
    exact ⟨hdot, hwXY, hbXY, hown, hk1, hk2⟩
  · left
    have e1 : getCell (setCell base R F X) r f = base r f := if_neg hc
    have e2 : getCell (setCell base R F Y) r f = base r f := if_neg hc
    rw [e1, e2]

/-! ### Relating `apply_move` to the filter's simulation -/

theorem apply_move_nul (bd : Board) (m : Move) (hnul : m.promotion = NUL) :
    apply_move bd m = simulate_move bd m := by
  simp only [apply_move, simulate_move, hnul]
  simp

theorem apply_move_nonpawn (bd : Board) (m : Move)
    (h : ¬((getCell bd m.r1 m.f1).toUpper = 'P' ∧ (m.r2 = 0 ∨ m.r2 = 7))) :
    apply_move bd m = simulate_move bd m := by
  have hc : ((getCell bd m.r1 m.f1).toUpper == 'P' &&
      (m.r2 == (0 : Int) || m.r2 == (7 : Int))) = false := by
    by_cases hP : (getCell bd m.r1 m.f1).toUpper = 'P'
    · have hr : ¬(m.r2 = 0 ∨ m.r2 = 7) := fun hr => h ⟨hP, hr⟩
      push_neg at hr
      simp [hP, hr.1, hr.2]
    · simp [hP]
  simp only [apply_move, simulate_move, hc]
  simp

theorem simulate_move_promo (bd : Board) (m : Move)
    (hP : (getCell bd m.r1 m.f1).toUpper = 'P') (hR : m.r2 = 0 ∨ m.r2 = 7) :
    simulate_move bd m = setCell (setCell bd m.r1 m.f1 '.') m.r2 m.f2
      (if is_white (getCell bd m.r1 m.f1) then 'Q' else 'q') := by
  have hc : ((getCell bd m.r1 m.f1).toUpper == 'P' &&
      (m.r2 == (0 : Int) || m.r2 == (7 : Int))) = true := by
    rcases hR with h0 | h0 <;> simp [hP, h0]
  simp only [simulate_move, hc]
  simp

theorem apply_move_promo (bd : Board) (m : Move)
    (hP : (getCell bd m.r1 m.f1).toUpper = 'P') (hR : m.r2 = 0 ∨ m.r2 = 7)
    (hprom : (m.promotion == NUL) = false) :
    apply_move bd m = setCell (setCell bd m.r1 m.f1 '.') m.r2 m.f2
      (if is_black (getCell bd m.r1 m.f1) then m.promotion.toLower
       else m.promotion) := by
  have hc : ((getCell bd m.r1 m.f1).toUpper == 'P' &&
      (m.r2 == (0 : Int) || m.r2 == (7 : Int))) = true := by
    rcases hR with h0 | h0 <;> simp [hP, h0]
  simp only [apply_move, hc, hprom]
  simp

/-! ### C1 — legality closure -/

/-- C1: every move returned by `generate_legal_moves` leads, via
`apply_move`, to a position in which the moving side is not in check —
regardless of which promotion piece (`Q`/`R`/`B`/`N` or none) is carried
on the move, even though the filter simulated the move with a default
queen promotion. -/
theorem legality_closure (bd : Board) (wt : Bool) (m : Move) (p : Char)
    (hm : m ∈ generate_legal_moves bd wt)
    (hp : p = NUL ∨ p = 'Q' ∨ p = 'R' ∨ p = 'B' ∨ p = 'N') :
    is_in_check (apply_move bd (Move.mk m.r1 m.f1 m.r2 m.f2 p)) wt = false := by
  have hnc : is_in_check (simulate_move bd m) wt = false :=
    legal_move_not_check bd wt m hm
  have hsim_eq : simulate_move bd (Move.mk m.r1 m.f1 m.r2 m.f2 p) =
      simulate_move bd m := rfl
  rcases hp with rfl | hp4
  · rw [apply_move_nul bd _ rfl, hsim_eq]
    exact hnc
  · by_cases hPL : (getCell bd m.r1 m.f1).toUpper = 'P' ∧ (m.r2 = 0 ∨ m.r2 = 7)
    · have hcol := legal_move_mover_color bd wt m hm
      have hprom : ((Move.mk m.r1 m.f1 m.r2 m.f2 p).promotion == NUL) = false := by
        rcases hp4 with rfl | rfl | rfl | rfl <;> rfl
      have hA := apply_move_promo bd (Move.mk m.r1 m.f1 m.r2 m.f2 p)
        hPL.1 hPL.2 hprom
      have hS := simulate_move_promo bd m hPL.1 hPL.2
      rw [hS] at hnc
      rw [hA]
      dsimp only at *
      cases wt with
      | true =>
        have hw : is_white (getCell bd m.r1 m.f1) = true := by
          simpa using hcol
        have hb : is_black (getCell bd m.r1 m.f1) = false :=
          is_white_not_black _ hw
        simp only [hb, Bool.false_eq_true, if_false]
        simp only [hw, if_true] at hnc
        refine (is_in_check_congr ?_).trans hnc
        rcases hp4 with rfl | rfl | rfl | rfl <;>
          exact check_equiv_setCell _ _ _ _ _ _ (by decide) (by decide)
            (by decide) (by decide) (by decide) (by decide)
      | false =>
        have hbk : is_black (getCell bd m.r1 m.f1) = true := by
          simpa using hcol
        have hwh : is_white (getCell bd m.r1 m.f1) = false :=
          is_black_not_white _ hbk
        simp only [hbk, if_true]
        simp only [hwh, Bool.false_eq_true, if_false] at hnc
        refine (is_in_check_congr ?_).trans hnc
        rcases hp4 with rfl | rfl | rfl | rfl <;>
          exact check_equiv_setCell _ _ _ _ _ _ (by decide) (by decide)
            (by decide) (by decide) (by decide) (by decide)
    · rw [apply_move_nonpawn bd (Move.mk m.r1 m.f1 m.r2 m.f2 p) hPL, hsim_eq]
      exact hnc

/-- Witness for C1 on `promo_board`: the promotion push a7-a8 is a legal
move, and applying it with an explicit knight promotion still leaves
White's king out of check. -/
theorem legality_closure_witness :
    is_in_check (apply_move promo_board (Move.mk 1 0 0 0 'N')) true = false :=
  legality_closure promo_board true (Move.mk 1 0 0 0 NUL) 'N'
    (by decide) (by decide)

/-! ### C2 — alpha-beta pruning is exact at the root window -/

theorem full_no_moves (bd : Board) (depth : Nat) (mx : Bool)
    (h : (generate_legal_moves bd mx).length = 0) :
    full_minimax bd depth mx =
      (if is_in_check bd mx then (if mx then -1000000 else 1000000) else 0) := by
  rw [full_minimax.eq_def]
  simp [h]

theorem full_depth0 (bd : Board) (mx : Bool)
    (h : (generate_legal_moves bd mx).length ≠ 0) :
    full_minimax bd 0 mx = evaluate_board bd := by
  rw [full_minimax.eq_def]
  simp [h]

theorem full_succ_max (bd : Board) (d : Nat)
    (h : (generate_legal_moves bd true).length ≠ 0) :
    full_minimax bd (d + 1) true =
      fullMaxGoF (fun b => full_minimax b d false) bd
        (generate_legal_moves bd true) INT_MIN := by
  rw [full_minimax.eq_def]
  simp [h]

theorem full_succ_min (bd : Board) (d : Nat)
    (h : (generate_legal_moves bd false).length ≠ 0) :
    full_minimax bd (d + 1) false =
      fullMinGoF (fun b => full_minimax b d true) bd
        (generate_legal_moves bd false) INT_MAX := by
  rw [full_minimax.eq_def]
  simp [h]

theorem if_gt_eq_max (x y : Int) : (if y > x then y else x) = max x y := by
  rcases le_or_lt y x with h | h
  · rw [if_neg (not_lt.mpr h), max_eq_left h]
  · rw [if_pos h, max_eq_right h.le]

theorem if_lt_eq_min (x y : Int) : (if y < x then y else x) = min x y := by
  rcases le_or_lt x y with h | h
  · rw [if_neg (not_lt.mpr h), min_eq_left h]
  · rw [if_pos h, min_eq_right h.le]

theorem fullMaxGoF_acc_max (f : Board → Int) (bd : Board) :
    ∀ (ms : List Move) (a c : Int),
      fullMaxGoF f bd ms (max a c) = max a (fullMaxGoF f bd ms c) := by
  intro ms
  induction ms with
  | nil => intro a c; rfl
  | cons m rest ih =>
    intro a c
    simp only [fullMaxGoF, if_gt_eq_max]
    rw [max_assoc, ih]

theorem le_fullMaxGoF (f : Board → Int) (bd : Board) :
    ∀ (ms : List Move) (acc : Int), acc ≤ fullMaxGoF f bd ms acc := by
  intro ms
  induction ms with
  | nil => intro acc; simp [fullMaxGoF]
  | cons m rest ih =>
    intro acc
    simp only [fullMaxGoF, if_gt_eq_max]
    exact le_trans (le_max_left acc _) (ih _)

theorem fullMinGoF_acc_min (f : Board → Int) (bd : Board) :
    ∀ (ms : List Move) (a c : Int),
      fullMinGoF f bd ms (min a c) = min a (fullMinGoF f bd ms c) := by
  intro ms
  induction ms with
  | nil => intro a c; rfl
  | cons m rest ih =>
    intro a c
    simp only [fullMinGoF, if_lt_eq_min]
    rw [min_assoc, ih]

theorem fullMinGoF_le (f : Board → Int) (bd : Board) :
    ∀ (ms : List Move) (acc : Int), fullMinGoF f bd ms acc ≤ acc := by
  intro ms
  induction ms with
  | nil => intro acc; simp [fullMinGoF]
  | cons m rest ih =>
    intro acc
    simp only [fullMinGoF, if_lt_eq_min]
    exact le_trans (ih _) (min_le_left acc _)

/-- Knuth-Moore style invariant for the maximizing alpha-beta loop: the
pruned loop fails soft.  `f` is the pruned child search, `F` the unpruned
child value; `hIH` is the node property one ply deeper. -/
theorem maxGoF_correct (f : Board → Int → Int → Int) (F : Board → Int)
    (bd : Board)
    (hIH : ∀ (b : Board) (a bb : Int), a < bb →
      (f b a bb ≤ a → F b ≤ f b a bb) ∧
      (bb ≤ f b a bb → f b a bb ≤ F b) ∧
      (a < f b a bb → f b a bb < bb → f b a bb = F b)) :
    ∀ (ms : List Move) (me A beta : Int), A < beta →
      me ≤ maxGoF f bd ms me A beta ∧
      (maxGoF f bd ms me A beta ≤ A →
        fullMaxGoF F bd ms me ≤ maxGoF f bd ms me A beta) ∧
      (beta ≤ maxGoF f bd ms me A beta →
        maxGoF f bd ms me A beta ≤ fullMaxGoF F bd ms me) ∧
      (A < maxGoF f bd ms me A beta → maxGoF f bd ms me A beta < beta →
        maxGoF f bd ms me A beta = fullMaxGoF F bd ms me) := by
  intro ms
  induction ms with
  | nil =>
    intro me A beta hab
    simp only [maxGoF, fullMaxGoF]
    exact ⟨le_refl me, fun _ => le_refl me, fun _ => le_refl me,
      fun _ _ => trivial⟩
  | cons m rest ih =>
    intro me A beta hab
    obtain ⟨c1, c2, c3⟩ := hIH (apply_move bd m) A beta hab
    simp only [maxGoF, fullMaxGoF, if_gt_eq_max]
    have hW := le_fullMaxGoF F bd rest me
    have hv : fullMaxGoF F bd rest (max me (F (apply_move bd m))) =
        max (F (apply_move bd m)) (fullMaxGoF F bd rest me) := by
      rw [max_comm me (F (apply_move bd m))]
      exact fullMaxGoF_acc_max F bd rest (F (apply_move bd m)) me
    rw [hv]
    by_cases hbr : beta ≤ max A (f (apply_move bd m) A beta)
    · rw [if_pos hbr]
      have hbe : beta ≤ f (apply_move bd m) A beta := by omega
      have hc2 := c2 hbe
      refine ⟨by omega, ?_, ?_, ?_⟩ <;> intros <;> omega
    · rw [if_neg hbr]
      have hab' : max A (f (apply_move bd m) A beta) < beta := by omega
      obtain ⟨L0, L1, L2, L3⟩ :=
        ih (max me (f (apply_move bd m) A beta))
          (max A (f (apply_move bd m) A beta)) beta hab'
      have hv' : fullMaxGoF F bd rest (max me (f (apply_move bd m) A beta)) =
          max (f (apply_move bd m) A beta) (fullMaxGoF F bd rest me) := by
        rw [max_comm me (f (apply_move bd m) A beta)]
        exact fullMaxGoF_acc_max F bd rest (f (apply_move bd m) A beta) me
      rw [hv'] at L1 L2 L3
      by_cases heA : f (apply_move bd m) A beta ≤ A
      · have hv1e := c1 heA
        refine ⟨by omega, ?_, ?_, ?_⟩
        · intro hrA
          have hL := L1 (by omega)
          omega
        · intro hbr2
          have hL := L2 hbr2
          omega
        · intro hAr hrb
          have hL := L3 (by omega) hrb
          omega
      · push_neg at heA
        have heb : f (apply_move bd m) A beta < beta := by omega
        have hev1 := c3 heA heb
        refine ⟨by omega, ?_, ?_, ?_⟩
        · intro hrA
          omega
        · intro hbr2
          have hL := L2 hbr2
          omega
        · intro hAr hrb
          by_cases hre : maxGoF f bd rest (max me (f (apply_move bd m) A beta))
              (max A (f (apply_move bd m) A beta)) beta ≤
              max A (f (apply_move bd m) A beta)
          · have hL := L1 hre
            omega
          · push_neg at hre
            have hL := L3 hre hrb
            omega

/-- Dual of `maxGoF_correct` for the minimizing alpha-beta loop. -/
theorem minGoF_correct (f : Board → Int → Int → Int) (F : Board → Int)
    (bd : Board)
    (hIH : ∀ (b : Board) (a bb : Int), a < bb →
      (f b a bb ≤ a → F b ≤ f b a bb) ∧
      (bb ≤ f b a bb → f b a bb ≤ F b) ∧
      (a < f b a bb → f b a bb < bb → f b a bb = F b)) :
    ∀ (ms : List Move) (me alpha B : Int), alpha < B →
      minGoF f bd ms me alpha B ≤ me ∧
      (minGoF f bd ms me alpha B ≤ alpha →
        fullMinGoF F bd ms me ≤ minGoF f bd ms me alpha B) ∧
      (B ≤ minGoF f bd ms me alpha B →
        minGoF f bd ms me alpha B ≤ fullMinGoF F bd ms me) ∧
      (alpha < minGoF f bd ms me alpha B → minGoF f bd ms me alpha B < B →
        minGoF f bd ms me alpha B = fullMinGoF F bd ms me) := by
  intro ms
  induction ms with
  | nil =>
    intro me alpha B hab
    simp only [minGoF, fullMinGoF]
    exact ⟨le_refl me, fun _ => le_refl me, fun _ => le_refl me,
      fun _ _ => trivial⟩
  | cons m rest ih =>
    intro me alpha B hab
    obtain ⟨c1, c2, c3⟩ := hIH (apply_move bd m) alpha B hab
    simp only [minGoF, fullMinGoF, if_lt_eq_min]
    have hW := fullMinGoF_le F bd rest me
    have hv : fullMinGoF F bd rest (min me (F (apply_move bd m))) =
        min (F (apply_move bd m)) (fullMinGoF F bd rest me) := by
      rw [min_comm me (F (apply_move bd m))]
      exact fullMinGoF_acc_min F bd rest (F (apply_move bd m)) me
    rw [hv]
    by_cases hbr : min B (f (apply_move bd m) alpha B) ≤ alpha
    · rw [if_pos hbr]
      have hea : f (apply_move bd m) alpha B ≤ alpha := by omega
      have hc1 := c1 hea
      refine ⟨by omega, ?_, ?_, ?_⟩ <;> intros <;> omega
    · rw [if_neg hbr]
      have hab' : alpha < min B (f (apply_move bd m) alpha B) := by omega
      obtain ⟨L0, L1, L2, L3⟩ :=
        ih (min me (f (apply_move bd m) alpha B)) alpha
          (min B (f (apply_move bd m) alpha B)) hab'
      have hv' : fullMinGoF F bd rest (min me (f (apply_move bd m) alpha B)) =
          min (f (apply_move bd m) alpha B) (fullMinGoF F bd rest me) := by
        rw [min_comm me (f (apply_move bd m) alpha B)]
        exact fullMinGoF_acc_min F bd rest (f (apply_move bd m) alpha B) me
      rw [hv'] at L1 L2 L3
      by_cases hBe : B ≤ f (apply_move bd m) alpha B
      · have hc2 := c2 hBe
        refine ⟨by omega, ?_, ?_, ?_⟩
        · intro hra
          have hL := L1 hra
          omega
        · intro hBr
          have hL := L2 (by omega)
          omega
        · intro har hrB
          have hL := L3 har (by omega)
          omega
      · push_neg at hBe
        refine ⟨by omega, ?_, ?_, ?_⟩
        · intro hra
          by_cases hea : f (apply_move bd m) alpha B ≤ alpha
          · have hc1 := c1 hea
            have hL := L1 hra
            omega
          · push_neg at hea
            have hc3 := c3 hea hBe
            have hL := L1 hra
            omega
        · intro hBr
          omega
        · intro har hrB
          by_cases hea : f (apply_move bd m) alpha B ≤ alpha
          · omega
          · push_neg at hea
            have hc3 := c3 hea hBe
            by_cases hre : f (apply_move bd m) alpha B ≤
                minGoF f bd rest (min me (f (apply_move bd m) alpha B)) alpha
                  (min B (f (apply_move bd m) alpha B))
            · have hL := L2 (by omega)
              omega
            · push_neg at hre
              have hL := L3 har (by omega)
              omega

/-- The node-level fail-soft property of the pruning search, by induction
on depth: a value inside the window is exact, a value at or below alpha is
an upper bound on the true value, a value at or above beta is a lower
bound. -/
theorem alphabeta_correct :
    ∀ (depth : Nat) (bd : Board) (mx : Bool) (alpha beta : Int),
      alpha < beta →
      (minimax bd depth alpha beta mx ≤ alpha →
        full_minimax bd depth mx ≤ minimax bd depth alpha beta mx) ∧
      (beta ≤ minimax bd depth alpha beta mx →
        minimax bd depth alpha beta mx ≤ full_minimax bd depth mx) ∧
      (alpha < minimax bd depth alpha beta mx →
        minimax bd depth alpha beta mx < beta →
        minimax bd depth alpha beta mx = full_minimax bd depth mx) := by
  intro depth
  induction depth with
  | zero =>
    intro bd mx alpha beta hab
    have he : minimax bd 0 alpha beta mx = full_minimax bd 0 mx := by
      by_cases h : (generate_legal_moves bd mx).length = 0
      · rw [minimax_no_moves bd 0 alpha beta mx h, full_no_moves bd 0 mx h]
      · rw [minimax_depth0 bd alpha beta mx h, full_depth0 bd mx h]
    rw [he]
    exact ⟨fun _ => le_refl _, fun _ => le_refl _, fun _ _ => rfl⟩
  | succ d ih =>
    intro bd mx alpha beta hab
    by_cases h : (generate_legal_moves bd mx).length = 0
    · have he : minimax bd (d + 1) alpha beta mx =
          full_minimax bd (d + 1) mx := by
        rw [minimax_no_moves bd (d + 1) alpha beta mx h,
          full_no_moves bd (d + 1) mx h]
      rw [he]
      exact ⟨fun _ => le_refl _, fun _ => le_refl _, fun _ _ => rfl⟩
    · cases mx with
      | true =>
        rw [minimax_succ_max bd d alpha beta h, full_succ_max bd d h]
        have hl := maxGoF_correct (fun b a bb => minimax b d a bb false)
          (fun b => full_minimax b d false) bd
          (fun b a bb hab' => ih b false a bb hab')
          (generate_legal_moves bd true) INT_MIN alpha beta hab
        exact ⟨hl.2.1, hl.2.2.1, hl.2.2.2⟩
      | false =>
        rw [minimax_succ_min bd d alpha beta h, full_succ_min bd d h]
        have hl := minGoF_correct (fun b a bb => minimax b d a bb true)
          (fun b => full_minimax b d true) bd
          (fun b a bb hab' => ih b true a bb hab')
          (generate_legal_moves bd false) INT_MAX alpha beta hab
        exact ⟨hl.2.1, hl.2.2.1, hl.2.2.2⟩

/-- C2: at the root window the program uses (`alpha0 = INT_MIN/2`,
`beta0 = INT_MAX/2`), the alpha-beta search `minimax` returns exactly the
value of the unpruned full minimax of the same depth over the same
legal-move generator and terminal scoring, for every board, depth and side
to move: pruning never alters the root value. -/
theorem alphabeta_equivalence (bd : Board) (depth : Nat) (mx : Bool) :
    minimax bd depth half_int_min half_int_max mx =
      full_minimax bd depth mx := by
  have hab : half_int_min < half_int_max := by decide
  obtain ⟨hb1, hb2⟩ := minimax_bounds depth bd half_int_min half_int_max mx
  have hmin : half_int_min = -1073741824 := rfl
  have hmax : half_int_max = 1073741823 := rfl
  exact (alphabeta_correct depth bd mx half_int_min half_int_max hab).2.2
    (by omega) (by omega)

end Chess
